import Mathlib

/-!
Verification development for the dolomite-engine distributed MoE training
runtime.  We shallowly embed the scalar/loss/shape-level behaviour of:

* the custom-gradient loss combination `_F` and `get_loss`
  (`dolomite_engine/model_wrapper/pretraining.py`);
* the pipeline auxiliary-loss relay
  (`dolomite_engine/hf_models/mixins/moe_TP/main.py` together with
  `_prepare_model_inputs` in `pretraining.py`);
* the single-step decode stick-breaking attention kernel
  (`decoding_stickbreaking` in
  `dolomite_engine/hf_models/modeling_utils/sequence_mixer_blocks/stickbreaking_attention.py`),
  both at the exact-real level and at the dtype-propagation level;
* the `cu_seqlens` constructions of `ModelWrapperForPretraining`;
* the weight-decay parameter grouping
  (`dolomite_engine/optimization/params_group.py`).
-/

namespace Dolomite

/-! ## Loss combination (`_F` and `get_loss`)

`_F` is a `torch.autograd.Function` with
`forward(lm_loss, aux_loss, c) = lm_loss + c * aux_loss` and a
hand-written `backward(grad) = (grad, c * grad, None)`.  We embed both
directions over the reals. -/

/-- Forward rule of the autograd function `_F`:
`lm_loss + router_aux_loss_coef * aux_loss`. -/
def F_forward (lm_loss aux_loss router_aux_loss_coef : ℝ) : ℝ :=
  lm_loss + router_aux_loss_coef * aux_loss

/-- Hand-specified backward rule of `_F`: the incoming `grad_output` is
routed unchanged to `lm_loss` and scaled by the coefficient to
`aux_loss` (the `None` for the coefficient argument is dropped). -/
def F_backward (router_aux_loss_coef grad_output : ℝ) : ℝ × ℝ :=
  (grad_output, router_aux_loss_coef * grad_output)

/-- The loss-combination branch of
`ModelWrapperForPretraining.get_loss`: if the drained auxiliary loss is
`0` the language-modeling loss is returned unchanged, otherwise the
combination goes through `_F.apply`. -/
noncomputable def get_loss_combined (lm_loss aux_loss router_aux_loss_coef : ℝ) : ℝ :=
  if aux_loss = 0 then lm_loss else F_forward lm_loss aux_loss router_aux_loss_coef

/-! ## Global auxiliary-loss accumulator and the pipeline relay

`add_aux_loss` / `get_aux_loss` live in `dolomite_engine/hf_models/loss`,
which is not part of the inspected sources; we model them from the spec.
The accumulator is explicit state (a scalar), threaded through each
stage's forward. -/

/-- Modelled from the spec: `add_aux_loss` (in `hf_models/loss`, not in
the inspected sources) adds a scalar contribution into the process-wide
auxiliary-loss accumulator. -/
def add_aux_loss (v acc : ℚ) : ℚ := acc + v

/-- Modelled from the spec: `get_aux_loss` (in `hf_models/loss`, not in
the inspected sources) drains the accumulator: it returns the current
total and resets the accumulator to zero. -/
def get_aux_loss (acc : ℚ) : ℚ × ℚ := (acc, 0)

/-- Auxiliary-scalar slice of `CausalLMMoEModelMixin_TP.forward`.
The accumulator starts drained (`0`); the transformer's MoE layers add
the stage's local total `t`; if pipeline parallelism is on and this is
not the first stage, the value received in the `past_key_values` slot
(`prev_aux_loss`) is added via `add_aux_loss`; finally `get_aux_loss`
drains the accumulator and the total is emitted alongside the stage
output. -/
def moe_stage_aux (is_pp is_first : Bool) (past_key_values : Option ℚ) (t : ℚ) : ℚ :=
  let acc : ℚ := 0
  let acc := acc + t
  let acc := if is_pp && !is_first then add_aux_loss (past_key_values.getD 0) acc else acc
  (get_aux_loss acc).1

/-- Chaining of stages by the pretraining wrapper: the carried scalar
returned by stage `i` is fed to stage `i+1` through
`_prepare_model_inputs`, which stores it in `batch["past_key_values"]`
exactly when it is not `None`.  The first stage receives `none`. -/
def runPipelineAux : Option ℚ → List ℚ → Option ℚ
  | carried, [] => carried
  | carried, t :: rest =>
      runPipelineAux (some (moe_stage_aux true carried.isNone carried t)) rest

/-- Run a pipelined model whose stages have local auxiliary totals
`totals`, returning the carried auxiliary scalar after the last stage. -/
def runPipeline (totals : List ℚ) : Option ℚ :=
  runPipelineAux none totals

/-! ## Single-step decode stick-breaking kernel, exact-real level

`decoding_stickbreaking(q, k, v, scale)` handles one query row per
batch/head slot; we embed one such slot: `q` is the query vector, `k`
and `v` are lists of key/value rows.  The kernel drops the final key and
value row (`k[..., :-1, :]`, `v[..., :-1, :]`). -/

/-- The logistic sigmoid over the reals. -/
noncomputable def sigmoid (x : ℝ) : ℝ := 1 / (1 + Real.exp (-x))

/-- `F.logsigmoid`, over the reals. -/
noncomputable def logsigmoid (x : ℝ) : ℝ := Real.log (sigmoid x)

/-- Dot product of two vectors given as lists. -/
def dot (a b : List ℝ) : ℝ := (List.zipWith (· * ·) a b).sum

/-- Running (inclusive) cumulative sums, as in `Tensor.cumsum(dim=-1)`
along a row. -/
def cumsum : List ℝ → List ℝ
  | [] => []
  | a :: t => a :: (cumsum t).map (fun x => a + x)

/-- `log_beta.flip(-1).cumsum(dim=-1).flip(-1) - log_beta`: at index `j`
this is the sum of `log_beta` strictly after `j`. -/
noncomputable def re_cum_log_beta (log_beta : List ℝ) : List ℝ :=
  List.zipWith (· - ·) ((cumsum log_beta.reverse).reverse) log_beta

/-- `logits = q @ k[..., :-1, :].transpose(-1, -2) * scale` for the
single query row. -/
noncomputable def decode_logits (q : List ℝ) (k : List (List ℝ)) (scale : ℝ) : List ℝ :=
  k.dropLast.map (fun kj => dot q kj * scale)

/-- The attention weights as a function of the logits row:
`att = exp(log_z + re_cum_log_beta)` where `log_z = logsigmoid(logits)`
and `log_beta = logsigmoid(-logits)`. -/
noncomputable def att_of_logits (logits : List ℝ) : List ℝ :=
  let log_z := logits.map logsigmoid
  let log_beta := logits.map (fun x => logsigmoid (-x))
  (List.zipWith (· + ·) log_z (re_cum_log_beta log_beta)).map Real.exp

/-- The attention weights of the decode kernel on `(q, k, scale)`. -/
noncomputable def decode_att_weights (q : List ℝ) (k : List (List ℝ)) (scale : ℝ) : List ℝ :=
  att_of_logits (decode_logits q k scale)

/-- Inclusive suffix sums: index `j` holds the sum of the entries from
`j` on (the specification of `flip.cumsum.flip`). -/
noncomputable def suffixSums : List ℝ → List ℝ
  | [] => []
  | a :: t => (a + t.sum) :: suffixSums t

/-- Scalar-vector product on list vectors. -/
def smul (a : ℝ) (v : List ℝ) : List ℝ := v.map (fun x => a * x)

/-- Vector addition on list vectors (missing entries act as zero). -/
def vadd : List ℝ → List ℝ → List ℝ
  | [], ys => ys
  | xs, [] => xs
  | x :: xs, y :: ys => (x + y) :: vadd xs ys

/-- `out = einsum("bhij,bhjd->bhid", att, v[..., :-1, :])` for the
single query row: the attention-weighted sum of the value rows, final
value row dropped. -/
noncomputable def decode_out (q : List ℝ) (k v : List (List ℝ)) (scale : ℝ) : List ℝ :=
  (List.zipWith smul (decode_att_weights q k scale) v.dropLast).foldr vadd []

/-- The body of `decoding_stickbreaking` (after the arity assert):
returns `(out, 1 - att.sum(dim=-1))` for the single query row. -/
noncomputable def decoding_stickbreaking (q : List ℝ) (k v : List (List ℝ)) (scale : ℝ) :
    List ℝ × ℝ :=
  (decode_out q k v scale, 1 - (decode_att_weights q k scale).sum)

/-- `decoding_stickbreaking` including its `assert q.size(2) == 1`
guard: the query is supplied as a list of query rows and the call fails
(`none`) exactly when the assert fires. -/
noncomputable def decoding_stickbreaking_checked (q : List (List ℝ)) (k v : List (List ℝ))
    (scale : ℝ) : Option (List ℝ × ℝ) :=
  if q.length = 1 then some (decoding_stickbreaking q.headI k v scale) else none

/-! ## Decode kernel, dtype-propagation level -/

/-- Floating-point dtypes relevant to the decode kernel. -/
inductive DType
  | f32
  | f16
  | bf16
deriving DecidableEq

/-- Binary type promotion: `float32` dominates the half-precision
types. -/
def DType.promote : DType → DType → DType
  | .f32, _ => .f32
  | _, .f32 => .f32
  | a, _ => a

/-- Dtypes of the intermediates of `decoding_stickbreaking`. -/
structure DecodeDTypes where
  logits : DType
  log_z : DType
  log_beta : DType
  re_cum_log_beta : DType
  log_att : DType
  att : DType
  out : DType
deriving DecidableEq

/-- Dtype trace of `decoding_stickbreaking` on inputs of dtype
`original`, line by line: `q = q.float()`, `k = k.float()`, then
`logits = q @ kᵀ * scale` (float32); `log_z` and `log_beta` are the
log-sigmoids cast back via `.to(original_dtype)`; flip/cumsum/sub, the
addition, `exp` and the einsum with `v` (still `original`) all stay in
the dtype of their operands. -/
def decoding_dtypes (original : DType) : DecodeDTypes :=
  let q := DType.f32
  let k := DType.f32
  let logits := q.promote k
  let _ := logits
  let log_z := original
  let log_beta := original
  let rclb := log_beta
  let log_att := log_z.promote rclb
  let att := log_att
  let out := att.promote original
  ⟨logits, log_z, log_beta, rclb, log_att, att, out⟩

/-- The spec's stated precision policy, as a predicate on the trace:
every internal intermediate is computed in the elevated dtype
(`float32`), and only the final output is converted back to the input
dtype. -/
def elevatedThroughout (d : DType) : Prop :=
  (decoding_dtypes d).logits = DType.f32 ∧
  (decoding_dtypes d).log_z = DType.f32 ∧
  (decoding_dtypes d).log_beta = DType.f32 ∧
  (decoding_dtypes d).re_cum_log_beta = DType.f32 ∧
  (decoding_dtypes d).log_att = DType.f32 ∧
  (decoding_dtypes d).att = DType.f32 ∧
  (decoding_dtypes d).out = d

instance (d : DType) : Decidable (elevatedThroughout d) := by
  unfold elevatedThroughout; infer_instance

/-! ## Pipeline-parallel forward output shape -/

/-- Value-level slice of the pipeline branch of
`CausalLMMoEModelMixin_TP.forward`: on the last stage the output pair is
`(lm_logits, aux_loss)`; on earlier stages it is
`(transformer_outputs.last_hidden_state, aux_loss)`.  Hidden state and
logits are abstracted to scalars, `lm_logits_of` abstracts
`get_lm_logits`. -/
def moe_forward_pp (is_last : Bool) (hidden : ℚ) (lm_logits_of : ℚ → ℚ) (aux : ℚ) : ℚ × ℚ :=
  if is_last then (lm_logits_of hidden, aux) else (hidden, aux)

/-- Refinement comparison target, following the spec's words: on the
last pipeline stage the forward returns the combined loss
(`lm_loss + coefficient * aux`) and the logits; on earlier stages the
intermediate activations and the carried auxiliary scalar. -/
def forward_pp_spec (is_last : Bool) (hidden : ℚ) (lm_logits_of : ℚ → ℚ)
    (lm_loss coef aux : ℚ) : ℚ × ℚ :=
  if is_last then (lm_loss + coef * aux, lm_logits_of hidden) else (hidden, aux)

/-! ## `cu_seqlens` constructions -/

/-- `torch.arange(start, stop, step)` over naturals. -/
def arange (start stop step : ℕ) : List ℕ :=
  (List.range ((stop - start + step - 1) / step)).map (fun i => start + step * i)

/-- The default `cu_seqlens` buffer registered by `reset_parameters`:
`torch.arange(0, micro_batch_size * sequence_length + 1, sequence_length)`. -/
def cu_seqlens_default (B L : ℕ) : List ℕ :=
  arange 0 (B * L + 1) L

/-- `document_end_positions` of `_prepare_model_inputs` after the forcing
loop: position `i` is a boundary if the token there is `eos_token_id` or
`i` is the last position of its row (`i ∈ range(L-1, B*L, L)`, i.e.
`i % L = L - 1`). -/
def document_end (ids : List ℕ) (eos L : ℕ) (i : ℕ) : Bool :=
  (ids.getD i 0 == eos) || (i % L == L - 1)

/-- The eos-derived `cu_seqlens` of `_prepare_model_inputs` when
`reset_attention_mask` is set: `nonzero(document_end_positions) + 1`
with a leading `0`. -/
def cu_seqlens_reset (ids : List ℕ) (eos L : ℕ) : List ℕ :=
  0 :: (((List.range ids.length).filter (document_end ids eos L)).map (· + 1))

/-! ## Weight-decay parameter grouping -/

/-- A module of the model, for `get_normal_group_with_names`: its
qualified name, whether it is a normalization module (`nn.LayerNorm`,
`nn.RMSNorm` or a class whose lowercased name ends in `"norm"`),
whether it is a `Mamba2Base`, and its parameters' relative names. -/
structure PModule where
  name : String
  isNorm : Bool
  isMamba : Bool
  params : List String
deriving DecidableEq

/-- `model.named_parameters()`: every module parameter under its fully
qualified name. -/
def named_parameters (mods : List PModule) : List String :=
  mods.flatMap (fun m => m.params.map (fun p => m.name ++ "." ++ p))

/-- First pass of `get_normal_group_with_names`: parameters of
normalization modules, plus `A_log`/`D` parameters of `Mamba2Base`
modules, keyed by qualified name. -/
def no_wd_from_modules (mods : List PModule) : List String :=
  mods.flatMap (fun m =>
    if m.isNorm then m.params.map (fun p => m.name ++ "." ++ p)
    else if m.isMamba then
      ((m.params.filter (fun p => p.endsWith "A_log" || p.endsWith "D")).map
        (fun p => m.name ++ "." ++ p))
    else [])

/-- `no_weight_decay_params` after the bias pass: module-derived entries
plus every named parameter ending in `"bias"` not already present. -/
def no_weight_decay_params (mods : List PModule) : List String :=
  let base := no_wd_from_modules mods
  base ++ (named_parameters mods).filter (fun n => !base.contains n && n.endsWith "bias")

/-- `normal_params`: every named parameter not in
`no_weight_decay_params`. -/
def normal_params (mods : List PModule) : List String :=
  (named_parameters mods).filter (fun n => !(no_weight_decay_params mods).contains n)

/-- A returned optimizer parameter group: its parameter names and an
optional `weight_decay` override. -/
structure ParamGroup where
  params : List String
  weight_decay : Option ℚ
deriving DecidableEq

/-- `get_normal_group_with_names`: with `weight_decay == 0` a single
group of all parameters; otherwise the normal group and, with
`weight_decay` overridden to `0`, the no-weight-decay group, each
appended only when non-empty. -/
def get_normal_group_with_names (wd : Option ℚ) (mods : List PModule) : List ParamGroup :=
  if wd = some 0 then [⟨named_parameters mods, none⟩]
  else
    (if (normal_params mods).length > 0 then [⟨normal_params mods, none⟩] else []) ++
    (if (no_weight_decay_params mods).length > 0 then
      [⟨no_weight_decay_params mods, some 0⟩] else [])

/-! ## Supporting lemmas -/

lemma runPipelineAux_some (c : ℚ) (l : List ℚ) :
    runPipelineAux (some c) l = some (c + l.sum) := by
  induction l generalizing c with
  | nil => simp [runPipelineAux]
  | cons t rest ih =>
      simp only [runPipelineAux, Option.isNone_some, moe_stage_aux,
        add_aux_loss, get_aux_loss, Option.getD_some, Bool.and_false]
      rw [ih]
      norm_num
      ring

lemma sigmoid_pos (x : ℝ) : 0 < sigmoid x := by
  unfold sigmoid
  positivity

lemma sigmoid_lt_one (x : ℝ) : sigmoid x < 1 := by
  unfold sigmoid
  rw [div_lt_one (by positivity)]
  linarith [Real.exp_pos (-x)]

lemma exp_logsigmoid (x : ℝ) : Real.exp (logsigmoid x) = sigmoid x :=
  Real.exp_log (sigmoid_pos x)

lemma one_sub_sigmoid (x : ℝ) : 1 - sigmoid x = sigmoid (-x) := by
  unfold sigmoid
  have hmul : Real.exp (-x) * Real.exp x = 1 := by
    rw [← Real.exp_add]
    simp
  rw [neg_neg]
  have h1 : (1:ℝ) + Real.exp (-x) ≠ 0 := by positivity
  have h2 : (1:ℝ) + Real.exp x ≠ 0 := by positivity
  field_simp
  linear_combination hmul

lemma cumsum_snoc (xs : List ℝ) (a : ℝ) :
    cumsum (xs ++ [a]) = cumsum xs ++ [xs.sum + a] := by
  induction xs with
  | nil => simp [cumsum]
  | cons x t ih =>
      simp only [List.cons_append, cumsum, List.append_eq]
      rw [ih, List.map_append]
      simp [add_assoc]

lemma cumsum_reverse_reverse (l : List ℝ) :
    (cumsum l.reverse).reverse = suffixSums l := by
  induction l with
  | nil => simp [cumsum, suffixSums]
  | cons a t ih =>
      rw [List.reverse_cons, cumsum_snoc, List.reverse_append]
      simp only [List.reverse_cons, List.reverse_nil, List.nil_append,
        List.singleton_append, List.sum_reverse]
      rw [ih]
      simp [suffixSums, add_comm]

lemma re_cum_log_beta_cons (a : ℝ) (t : List ℝ) :
    re_cum_log_beta (a :: t) = t.sum :: re_cum_log_beta t := by
  unfold re_cum_log_beta
  rw [cumsum_reverse_reverse, cumsum_reverse_reverse]
  simp [suffixSums]

lemma att_of_logits_cons (x : ℝ) (T : List ℝ) :
    att_of_logits (x :: T) =
      Real.exp (logsigmoid x + (T.map (fun y => logsigmoid (-y))).sum) :: att_of_logits T := by
  unfold att_of_logits
  simp only [List.map_cons, re_cum_log_beta_cons, List.zipWith_cons_cons]

lemma exp_list_sum (l : List ℝ) : Real.exp l.sum = (l.map Real.exp).prod := by
  induction l with
  | nil => simp
  | cons a t ih => simp [Real.exp_add, ih]

lemma att_of_logits_sum (L : List ℝ) :
    (att_of_logits L).sum = 1 - (L.map (fun x => sigmoid (-x))).prod := by
  induction L with
  | nil => simp [att_of_logits, re_cum_log_beta, cumsum]
  | cons x T ih =>
      rw [att_of_logits_cons, List.sum_cons, ih, Real.exp_add, exp_logsigmoid,
        exp_list_sum, List.map_map]
      have hmap : (List.map (Real.exp ∘ fun y => logsigmoid (-y)) T) =
          T.map (fun y => sigmoid (-y)) := by
        apply List.map_congr_left
        intro y _
        simp [Function.comp, exp_logsigmoid]
      rw [hmap]
      have hσ : sigmoid x = 1 - sigmoid (-x) := by
        have := one_sub_sigmoid x
        linarith
      rw [hσ, List.map_cons, List.prod_cons]
      ring

lemma sig_prod_bounds (L : List ℝ) :
    0 < (L.map (fun x => sigmoid (-x))).prod ∧ (L.map (fun x => sigmoid (-x))).prod ≤ 1 := by
  induction L with
  | nil => simp
  | cons x T ih =>
      rw [List.map_cons, List.prod_cons]
      constructor
      · exact mul_pos (sigmoid_pos _) ih.1
      · calc sigmoid (-x) * (T.map (fun y => sigmoid (-y))).prod
            ≤ 1 * 1 := by
              apply mul_le_mul (le_of_lt (sigmoid_lt_one _)) ih.2 (le_of_lt ih.1)
              norm_num
          _ = 1 := by norm_num

lemma cu_seqlens_default_eq (B L : ℕ) (hL : 0 < L) :
    cu_seqlens_default B L = (List.range (B + 1)).map (fun i => L * i) := by
  unfold cu_seqlens_default arange
  have hcount : (B * L + 1 - 0 + L - 1) / L = B + 1 := by
    have h : B * L + 1 - 0 + L - 1 = L * (B + 1) := by
      have : L * (B + 1) = B * L + L := by ring
      omega
    rw [h, Nat.mul_div_cancel_left _ hL]
  rw [hcount]
  apply List.map_congr_left
  intro i _
  omega

lemma chain_lt_map_mul (L n : ℕ) (hL : 0 < L) :
    List.Chain' (· < ·) ((List.range n).map (fun i => L * i)) := by
  rw [List.chain'_map]
  apply List.Pairwise.chain'
  apply (List.pairwise_lt_range n).imp
  intro a b hab
  exact (mul_lt_mul_left hL).mpr hab

lemma map_range_head (f : ℕ → ℕ) (n : ℕ) (hn : 0 < n) :
    ((List.range n).map f).head? = some (f 0) := by
  obtain ⟨m, rfl⟩ := Nat.exists_eq_succ_of_ne_zero hn.ne'
  rw [List.range_succ_eq_map]
  simp

lemma map_range_getLast (f : ℕ → ℕ) (n : ℕ) :
    ((List.range (n + 1)).map f).getLast? = some (f n) := by
  rw [List.range_succ, List.map_append]
  simp

lemma filter_range_concat_true (N : ℕ) (p : ℕ → Bool) (hp : p N = true) :
    (List.range (N + 1)).filter p = ((List.range N).filter p) ++ [N] := by
  rw [List.range_succ, List.filter_append]
  simp [hp]

lemma cu_seqlens_reset_props (ids : List ℕ) (eos L : ℕ) (hN : 0 < ids.length)
    (hplast : document_end ids eos L (ids.length - 1) = true) :
    List.Chain' (· < ·) (cu_seqlens_reset ids eos L) ∧
    (cu_seqlens_reset ids eos L).head? = some 0 ∧
    (cu_seqlens_reset ids eos L).getLast? = some ids.length := by
  obtain ⟨M, hM⟩ := Nat.exists_eq_succ_of_ne_zero hN.ne'
  have hpM : document_end ids eos L M = true := by
    rw [hM] at hplast
    simpa using hplast
  refine ⟨?_, rfl, ?_⟩
  · unfold cu_seqlens_reset
    apply List.Pairwise.chain'
    rw [List.pairwise_cons]
    constructor
    · intro b hb
      rw [List.mem_map] at hb
      obtain ⟨j, _, rfl⟩ := hb
      omega
    · rw [List.pairwise_map]
      apply ((List.pairwise_lt_range ids.length).filter _).imp
      intro a b hab
      omega
  · unfold cu_seqlens_reset
    rw [hM, filter_range_concat_true M _ hpM, List.map_append]
    simp only [List.map_cons, List.map_nil, ← List.cons_append]
    rw [List.getLast?_concat]

/-! ## Claim theorems -/

/-- C1: for a model split into `S ≥ 1` pipeline stages with local
auxiliary totals `t_1..t_S`, each stage after the first receives the
carried scalar via the `past_key_values` slot and adds it into the
accumulator, each stage forwards its drained total, and the last
stage's carried auxiliary value is `t_1 + ... + t_S`; with pipelining
disabled (one implicit stage) the drained value is the local total. -/
theorem pipeline_relay_sums (totals : List ℚ) (h : totals ≠ []) :
    runPipeline totals = some totals.sum ∧
    moe_stage_aux false true none (totals.headD 0) = totals.headD 0 := by
  constructor
  · obtain ⟨t, rest, rfl⟩ := List.exists_cons_of_ne_nil h
    simp only [runPipeline, runPipelineAux, Option.isNone_none]
    have hfirst : moe_stage_aux true true none t = t := by
      simp [moe_stage_aux, get_aux_loss]
    rw [hfirst, runPipelineAux_some]
    simp
  · simp [moe_stage_aux, get_aux_loss]

theorem pipeline_relay_sums_witness :
    runPipeline [1, 2, 3] = some (([1, 2, 3] : List ℚ).sum) ∧
    moe_stage_aux false true none (([1, 2, 3] : List ℚ).headD 0) =
      ([1, 2, 3] : List ℚ).headD 0 :=
  pipeline_relay_sums [1, 2, 3] (by decide)

/-- C2: the loss combination computes
`total = lm_loss + coefficient * aux_loss` forward, and its
hand-specified backward routes exactly `grad_output` to `lm_loss` and
exactly `coefficient * grad_output` to `aux_loss`, matching the true
partial derivatives of the forward expression for every `grad_output`
and every coefficient. -/
theorem F_custom_gradient (lm aux coef g : ℝ) :
    F_forward lm aux coef = lm + coef * aux ∧
    F_backward coef g = (g, coef * g) ∧
    (F_backward coef g).1 = g * deriv (fun x => F_forward x aux coef) lm ∧
    (F_backward coef g).2 = g * deriv (fun y => F_forward lm y coef) aux := by
  refine ⟨rfl, rfl, ?_, ?_⟩
  · have h1 : HasDerivAt (fun x : ℝ => F_forward x aux coef) 1 lm := by
      simpa [F_forward] using (hasDerivAt_id lm).add_const (coef * aux)
    rw [h1.deriv]
    simp [F_backward]
  · have h2 : HasDerivAt (fun y : ℝ => F_forward lm y coef) coef aux := by
      simpa [F_forward] using ((hasDerivAt_id aux).const_mul coef).const_add lm
    rw [h2.deriv]
    simp [F_backward, mul_comm]

/-- C4: with `router_aux_loss_coef = 0` the combined loss of `get_loss`
equals the language-modeling loss exactly for every accumulated
auxiliary loss, and the gradient of the combination with respect to the
auxiliary loss is exactly zero (both the hand-specified backward and
the true derivative). -/
theorem zero_coefficient_loss (lm aux g : ℝ) :
    get_loss_combined lm aux 0 = lm ∧ (F_backward 0 g).2 = 0 ∧
    deriv (fun a => F_forward lm a 0) aux = 0 := by
  refine ⟨?_, by simp [F_backward], ?_⟩
  · unfold get_loss_combined F_forward
    split
    · rfl
    · ring
  · have h : HasDerivAt (fun a : ℝ => F_forward lm a 0) 0 aux := by
      have h0 := ((hasDerivAt_id aux).const_mul (0:ℝ)).const_add lm
      simpa [F_forward] using h0
    exact h.deriv

/-- C5: the decode stick-breaking kernel fails its assertion exactly
when the number of supplied query rows differs from `1`; with exactly
one query row it proceeds. -/
theorem decode_assert_single_query (q k v : List (List ℝ)) (scale : ℝ) :
    decoding_stickbreaking_checked q k v scale = none ↔ q.length ≠ 1 := by
  unfold decoding_stickbreaking_checked
  split <;> simp [*]

/-- C6 counterexample: on `bfloat16` inputs the decode kernel does not
keep every internal intermediate in `float32` with a single conversion
at the end — the log-sigmoid results are cast back to `bfloat16` in the
middle of the computation. -/
theorem decode_dtype_not_elevated_throughout : ¬ elevatedThroughout DType.bf16 := by
  decide

/-- C6 amended: the decode kernel computes the query-key scores in
`float32`, but casts the log-sigmoid results back to the input dtype
immediately; the reverse cumulative sum, the exponential and the
value-weighted sum all run in the input dtype, and the output stays in
the input dtype. -/
theorem decode_dtype_policy (d : DType) :
    (decoding_dtypes d).logits = DType.f32 ∧ (decoding_dtypes d).log_z = d ∧
    (decoding_dtypes d).log_beta = d ∧ (decoding_dtypes d).re_cum_log_beta = d ∧
    (decoding_dtypes d).log_att = d ∧ (decoding_dtypes d).att = d ∧
    (decoding_dtypes d).out = d := by
  cases d <;> exact ⟨rfl, rfl, rfl, rfl, rfl, rfl, rfl⟩

/-- C7 counterexample: on the last pipeline stage the forward does not
return the combined loss with the logits — at a concrete input its
output pair `(lm_logits, aux_loss)` differs from the spec-described
pair `(combined loss, logits)`. -/
theorem pipeline_output_shape_counterexample :
    moe_forward_pp true 0 (fun h => h + 1) 2 ≠ forward_pp_spec true 0 (fun h => h + 1) 5 1 2 := by
  norm_num [moe_forward_pp, forward_pp_spec]

/-- C7 amended: when pipeline parallelism is active the forward
returns, on the last stage, the logits and the carried auxiliary
scalar (the combined loss is computed outside the forward); on earlier
stages it returns the intermediate activations and the carried
auxiliary scalar. -/
theorem pipeline_output_shape (hidden aux : ℚ) (f : ℚ → ℚ) :
    moe_forward_pp true hidden f aux = (f hidden, aux) ∧
    moe_forward_pp false hidden f aux = (hidden, aux) :=
  ⟨rfl, rfl⟩

/-- C9: the decode kernel's output and remainder do not depend on the
final key and value rows — any two inputs agreeing on `q`, on all but
the final row of `k`, and on all but the final row of `v` produce
identical results. -/
theorem decode_ignores_last_kv (q : List ℝ) (k v k2 v2 : List (List ℝ)) (scale : ℝ)
    (hk : k.dropLast = k2.dropLast) (hv : v.dropLast = v2.dropLast) :
    decoding_stickbreaking q k v scale = decoding_stickbreaking q k2 v2 scale := by
  unfold decoding_stickbreaking decode_out decode_att_weights decode_logits
  rw [hk, hv]

theorem decode_ignores_last_kv_witness :
    decoding_stickbreaking [1] [[1], [2]] [[5], [6]] 1 =
      decoding_stickbreaking [1] [[1], [3]] [[5], [7]] 1 :=
  decode_ignores_last_kv [1] [[1], [2]] [[5], [6]] [[1], [3]] [[5], [7]] 1 rfl rfl

/-- C3: over exact real arithmetic, every attention weight produced by
the decode stick-breaking kernel is non-negative, the weights plus the
returned remainder sum to exactly `1` for the query row, and the
remainder lies in `[0, 1]`. -/
theorem decode_normalization (q : List ℝ) (k v : List (List ℝ)) (scale : ℝ) :
    (∀ w ∈ decode_att_weights q k scale, 0 ≤ w) ∧
    (decode_att_weights q k scale).sum + (decoding_stickbreaking q k v scale).2 = 1 ∧
    0 ≤ (decoding_stickbreaking q k v scale).2 ∧
    (decoding_stickbreaking q k v scale).2 ≤ 1 := by
  have hb := sig_prod_bounds (decode_logits q k scale)
  have hR : (decoding_stickbreaking q k v scale).2 =
      ((decode_logits q k scale).map (fun x => sigmoid (-x))).prod := by
    simp only [decoding_stickbreaking, decode_att_weights]
    rw [att_of_logits_sum]
    ring
  refine ⟨?_, ?_, ?_, ?_⟩
  · intro w hw
    unfold decode_att_weights att_of_logits at hw
    simp only [List.mem_map] at hw
    obtain ⟨a, _, rfl⟩ := hw
    exact (Real.exp_pos a).le
  · simp only [decoding_stickbreaking]
    ring
  · rw [hR]
    exact hb.1.le
  · rw [hR]
    exact hb.2

/-- C8: both `cu_seqlens` constructions of the pretraining wrapper —
the uniform-segment buffer of `reset_parameters` and the eos-derived
boundaries of `_prepare_model_inputs` under `reset_attention_mask` —
are strictly increasing, start at `0` and end at the total token count
`micro_batch_size * sequence_length`. -/
theorem cu_seqlens_invariants (B L eos : ℕ) (ids : List ℕ)
    (hB : 0 < B) (hL : 0 < L) (hlen : ids.length = B * L) :
    (List.Chain' (· < ·) (cu_seqlens_default B L) ∧
      (cu_seqlens_default B L).head? = some 0 ∧
      (cu_seqlens_default B L).getLast? = some (B * L)) ∧
    (List.Chain' (· < ·) (cu_seqlens_reset ids eos L) ∧
      (cu_seqlens_reset ids eos L).head? = some 0 ∧
      (cu_seqlens_reset ids eos L).getLast? = some (B * L)) := by
  have hN : 0 < ids.length := by
    rw [hlen]
    exact Nat.mul_pos hB hL
  have hmod : (B * L - 1) % L = L - 1 := by
    obtain ⟨b, rfl⟩ := Nat.exists_eq_succ_of_ne_zero hB.ne'
    have h1 : (b + 1) * L - 1 = (L - 1) + b * L := by
      have h2 : (b + 1) * L = b * L + L := by ring
      omega
    rw [h1, Nat.add_mul_mod_self_right, Nat.mod_eq_of_lt]
    omega
  have hplast : document_end ids eos L (ids.length - 1) = true := by
    rw [hlen]
    simp [document_end, hmod]
  have hreset := cu_seqlens_reset_props ids eos L hN hplast
  constructor
  · rw [cu_seqlens_default_eq B L hL]
    refine ⟨chain_lt_map_mul L (B + 1) hL, ?_, ?_⟩
    · rw [map_range_head _ _ (Nat.succ_pos B)]
      simp
    · rw [map_range_getLast, Nat.mul_comm]
  · rw [← hlen]
    exact hreset

theorem cu_seqlens_invariants_witness :
    (List.Chain' (· < ·) (cu_seqlens_default 2 3) ∧
      (cu_seqlens_default 2 3).head? = some 0 ∧
      (cu_seqlens_default 2 3).getLast? = some (2 * 3)) ∧
    (List.Chain' (· < ·) (cu_seqlens_reset [1, 0, 1, 1, 1, 1] 0 3) ∧
      (cu_seqlens_reset [1, 0, 1, 1, 1, 1] 0 3).head? = some 0 ∧
      (cu_seqlens_reset [1, 0, 1, 1, 1, 1] 0 3).getLast? = some (2 * 3)) :=
  cu_seqlens_invariants 2 3 0 [1, 0, 1, 1, 1, 1] (by decide) (by decide) (by decide)

theorem decode_normalization_witness :
    (decode_att_weights [1] [[1], [0]] 1).sum +
      (decoding_stickbreaking [1] [[1], [0]] [[2], [3]] 1).2 = 1 ∧
    0 ≤ (decoding_stickbreaking [1] [[1], [0]] [[2], [3]] 1).2 ∧
    (decoding_stickbreaking [1] [[1], [0]] [[2], [3]] 1).2 ≤ 1 :=
  ⟨(decode_normalization [1] [[1], [0]] [[2], [3]] 1).2.1,
   (decode_normalization [1] [[1], [0]] [[2], [3]] 1).2.2.1,
   (decode_normalization [1] [[1], [0]] [[2], [3]] 1).2.2.2⟩

/-- C10: with a nonzero optimizer `weight_decay`,
`get_normal_group_with_names` partitions the named parameters: each is
in exactly one of the normal / no-weight-decay groups, the groups are
disjoint and cover all parameters, every parameter ending in `"bias"`
or belonging to a normalization module lands in the no-weight-decay
group, and that group carries `weight_decay = 0`. -/
theorem weight_decay_partition (wd : Option ℚ) (mods : List PModule) (hwd : wd ≠ some 0) :
    (∀ n ∈ named_parameters mods,
        (n ∈ normal_params mods ↔ n ∉ no_weight_decay_params mods)) ∧
    (∀ n ∈ normal_params mods, n ∉ no_weight_decay_params mods) ∧
    (∀ n ∈ named_parameters mods,
        n ∈ normal_params mods ∨ n ∈ no_weight_decay_params mods) ∧
    (∀ n ∈ named_parameters mods, n.endsWith "bias" = true →
        n ∈ no_weight_decay_params mods) ∧
    (∀ m ∈ mods, m.isNorm = true → ∀ p ∈ m.params,
        (m.name ++ "." ++ p) ∈ no_weight_decay_params mods) ∧
    (no_weight_decay_params mods ≠ [] →
        ParamGroup.mk (no_weight_decay_params mods) (some 0) ∈
          get_normal_group_with_names wd mods) := by
  have hmem : ∀ n, n ∈ normal_params mods ↔
      n ∈ named_parameters mods ∧ n ∉ no_weight_decay_params mods := by
    intro n
    simp [normal_params, List.mem_filter]
  refine ⟨?_, ?_, ?_, ?_, ?_, ?_⟩
  · intro n hn
    rw [hmem]
    tauto
  · intro n hn
    exact ((hmem n).mp hn).2
  · intro n hn
    by_cases h : n ∈ no_weight_decay_params mods
    · exact Or.inr h
    · exact Or.inl ((hmem n).mpr ⟨hn, h⟩)
  · intro n hn hbias
    unfold no_weight_decay_params
    by_cases h : n ∈ no_wd_from_modules mods
    · exact List.mem_append_left _ h
    · apply List.mem_append_right
      rw [List.mem_filter]
      refine ⟨hn, ?_⟩
      simp [h, hbias]
  · intro m hm hnorm p hp
    apply List.mem_append_left
    unfold no_wd_from_modules
    rw [List.mem_flatMap]
    refine ⟨m, hm, ?_⟩
    simp only [hnorm, if_true]
    exact List.mem_map.mpr ⟨p, hp, rfl⟩
  · intro hne
    unfold get_normal_group_with_names
    rw [if_neg hwd]
    apply List.mem_append_right
    rw [if_pos (by simpa using List.length_pos.mpr hne)]
    exact List.mem_singleton.mpr rfl

theorem weight_decay_partition_witness :
    (∀ n ∈ named_parameters [⟨"ln", true, false, ["weight", "bias"]⟩,
        ⟨"fc", false, false, ["weight", "bias"]⟩],
        (n ∈ normal_params [⟨"ln", true, false, ["weight", "bias"]⟩,
            ⟨"fc", false, false, ["weight", "bias"]⟩] ↔
          n ∉ no_weight_decay_params [⟨"ln", true, false, ["weight", "bias"]⟩,
            ⟨"fc", false, false, ["weight", "bias"]⟩])) ∧
    (∀ n ∈ normal_params [⟨"ln", true, false, ["weight", "bias"]⟩,
        ⟨"fc", false, false, ["weight", "bias"]⟩],
        n ∉ no_weight_decay_params [⟨"ln", true, false, ["weight", "bias"]⟩,
          ⟨"fc", false, false, ["weight", "bias"]⟩]) ∧
    (∀ n ∈ named_parameters [⟨"ln", true, false, ["weight", "bias"]⟩,
        ⟨"fc", false, false, ["weight", "bias"]⟩],
        n ∈ normal_params [⟨"ln", true, false, ["weight", "bias"]⟩,
          ⟨"fc", false, false, ["weight", "bias"]⟩] ∨
        n ∈ no_weight_decay_params [⟨"ln", true, false, ["weight", "bias"]⟩,
          ⟨"fc", false, false, ["weight", "bias"]⟩]) ∧
    (∀ n ∈ named_parameters [⟨"ln", true, false, ["weight", "bias"]⟩,
        ⟨"fc", false, false, ["weight", "bias"]⟩], n.endsWith "bias" = true →
        n ∈ no_weight_decay_params [⟨"ln", true, false, ["weight", "bias"]⟩,
          ⟨"fc", false, false, ["weight", "bias"]⟩]) ∧
    (∀ m ∈ [⟨"ln", true, false, ["weight", "bias"]⟩,
        (⟨"fc", false, false, ["weight", "bias"]⟩ : PModule)], m.isNorm = true →
        ∀ p ∈ m.params,
        (m.name ++ "." ++ p) ∈ no_weight_decay_params [⟨"ln", true, false, ["weight", "bias"]⟩,
          ⟨"fc", false, false, ["weight", "bias"]⟩]) ∧
    (no_weight_decay_params [⟨"ln", true, false, ["weight", "bias"]⟩,
        ⟨"fc", false, false, ["weight", "bias"]⟩] ≠ [] →
        ParamGroup.mk (no_weight_decay_params [⟨"ln", true, false, ["weight", "bias"]⟩,
            ⟨"fc", false, false, ["weight", "bias"]⟩]) (some 0) ∈
          get_normal_group_with_names (some 1) [⟨"ln", true, false, ["weight", "bias"]⟩,
            ⟨"fc", false, false, ["weight", "bias"]⟩]) :=
  weight_decay_partition (some 1)
    [⟨"ln", true, false, ["weight", "bias"]⟩, ⟨"fc", false, false, ["weight", "bias"]⟩]
    (by norm_num)

end Dolomite
